import Mathlib

/-!
Verification of the document-assistant core of `swarm-startup-analysis`
(`genai_document_assistant.py`, with `DataExtractor.py` treated as the
extraction backend it is in the source).

Python strings are modelled as lists of characters (`Str`), Python dicts
(which preserve insertion order and update existing keys in place) as
association lists with `dictInsert`, and every external effect (GCS blob
listing, the extraction backends, the LLM call, the wall clock) as an
explicit function parameter.  Fallible external calls are modelled with
`Except`; an exception raised anywhere while processing one blob is the
`BlobOutcome.raises` case.
-/

namespace DocAssistant

/-- Python strings, modelled as lists of characters. -/
abbrev Str := List Char

/-- Shorthand turning a Lean string literal into the `Str` model. -/
def str (s : String) : Str := s.data

/-- Whitespace test used by Python's `str.split()` / `str.strip()`. -/
def isWs (c : Char) : Bool := c.isWhitespace

/-- Python `str.strip()`: drop leading and trailing whitespace. -/
def strip (s : Str) : Str := ((s.dropWhile isWs).reverse.dropWhile isWs).reverse

/-- Python `str.lower()` (per-character case folding). -/
def lowerStr (s : Str) : Str := s.map Char.toLower

/-- Python `str.split()` with no argument: split on whitespace runs,
dropping empty chunks. -/
def splitWs (s : Str) : List Str :=
  (List.splitOnP isWs s).filter (fun t => !t.isEmpty)

/-- Python `needle in hay` on strings: substring occurrence test. -/
def containsSub (hay need : Str) : Bool :=
  (List.range (hay.length + 1)).any (fun i => need.isPrefixOf (hay.drop i))

/-- Python `hay.find(need)`: index of the first occurrence, `none` for -1. -/
def findSub (hay need : Str) : Option Nat :=
  (List.range (hay.length + 1)).find? (fun i => need.isPrefixOf (hay.drop i))

/-- Python dict assignment `d[k] = v`: overwrite in place if the key is
present (keeping its position), otherwise append at the end. -/
def dictInsert {β : Type} (k : Str) (v : β) (d : List (Str × β)) : List (Str × β) :=
  if d.any (fun p => decide (p.1 = k)) then
    d.map (fun p => if p.1 = k then (k, v) else p)
  else d ++ [(k, v)]

/-- Python dict lookup `d[k]` (as an option; the source only performs it
on keys that are present, see the `Inv` invariant). -/
def dlookup {β : Type} (d : List (Str × β)) (k : Str) : Option β :=
  (d.find? (fun p => decide (p.1 = k))).map (fun p => p.2)

/-- The value of the last write to key `k` in a list of writes. -/
def lastW {β : Type} : List (Str × β) → Str → Option β
  | [], _ => none
  | w :: ws, k => (lastW ws k).or (if w.1 = k then some w.2 else none)

/-- Apply a list of dict writes in order. -/
def applyW {β : Type} (d : List (Str × β)) (ws : List (Str × β)) : List (Str × β) :=
  ws.foldl (fun d w => dictInsert w.1 w.2 d) d

/-- Keys of `ws` not yet in `seen`, in order of first occurrence
(the keys that `applyW` appends as new entries). -/
def newKeys {β : Type} (seen : List Str) : List (Str × β) → List Str
  | [] => []
  | w :: ws => if w.1 ∈ seen then newKeys seen ws else w.1 :: newKeys (seen ++ [w.1]) ws

/-- Metadata stored with each document
(`self.document_metadata[file_name]` in the source). -/
structure DocMeta where
  type : Str
  size_chars : Nat
  gcs_path : Str
  processed_at : Str
deriving DecidableEq

/-- The assistant's two in-memory stores:
`self.document_contents` and `self.document_metadata`. -/
structure IngestState where
  contents : List (Str × Str)
  metadata : List (Str × DocMeta)
deriving DecidableEq

/-- The `type` field of a document's metadata
(`self.document_metadata[doc_name]["type"]`; total by the `Inv` invariant). -/
def metaType (st : IngestState) (n : Str) : Str :=
  ((dlookup st.metadata n).map DocMeta.type).getD []

/-- A ranked candidate dict built inside `create_context_from_documents`. -/
structure Ranked where
  name : Str
  content : Str
  score : Nat
  type : Str
deriving DecidableEq

/-- `set(query.lower().split())`: the distinct lower-cased query terms
(as a duplicate-free list; the score below only counts members, so the
arbitrary iteration order of a Python set is irrelevant). -/
def queryTerms (query : Str) : List Str := (splitWs (lowerStr query)).dedup

/-- `sum(1 for term in query_terms if term in content_lower)`. -/
def docScore (terms : List Str) (content : Str) : Nat :=
  (terms.filter (fun t => containsSub (lowerStr content) t)).length

/-- Spec-side reformulation of the score: the number of elements of the
*set* of lower-cased query terms occurring as substrings of the
lower-cased document text. -/
def distinctTermMatches (query content : Str) : Nat :=
  ((splitWs (lowerStr query)).toFinset.filter
    (fun t => containsSub (lowerStr content) t)).card

/-- The scoring loop of `create_context_from_documents`: one candidate per
document whose score is strictly positive, in corpus insertion order. -/
def scoredCandidates (st : IngestState) (query : Str) : List Ranked :=
  let terms := queryTerms query
  st.contents.filterMap (fun p =>
    if 0 < docScore terms p.2 then
      some ⟨p.1, p.2, docScore terms p.2, metaType st p.1⟩
    else none)

/-- The ranked set including the zero-match fallback
(`list(self.document_contents.items())[:2]`, each with score 0). -/
def rankedCandidates (st : IngestState) (query : Str) : List Ranked :=
  if scoredCandidates st query = [] then
    (st.contents.take 2).map (fun p => ⟨p.1, p.2, 0, metaType st p.1⟩)
  else scoredCandidates st query

/-- Stable descending insertion of a candidate: placed before the first
element whose score is less than or equal to its own. -/
def insertRanked (a : Ranked) : List Ranked → List Ranked
  | [] => [a]
  | b :: l => if b.score ≤ a.score then a :: b :: l else b :: insertRanked a l

/-- `ranked.sort(key=lambda d: d["score"], reverse=True)`: Python's sort is
stable, and a stable sort's output is determined by sortedness plus
stability, so insertion sort is an exact model. -/
def sortByScoreDesc : List Ranked → List Ranked
  | [] => []
  | a :: l => insertRanked a (sortByScoreDesc l)

/-- `f"=== {doc['name']} ({doc['type']}) ===\n"`. -/
def mkHeader (name ty : Str) : Str :=
  str "=== " ++ name ++ str " (" ++ ty ++ str ") ===\n"

/-- The greedy assembly loop of `create_context_from_documents`
(the `break` on a non-positive remaining budget returns the context as is). -/
def contextLoop (maxLen : Nat) : List Ranked → Str → Str
  | [], context => context
  | d :: rest, context =>
    let header := mkHeader d.name d.type
    let remaining : Int :=
      (maxLen : Int) - (context.length : Int) - (header.length : Int) - 100
    if remaining ≤ 0 then context
    else contextLoop maxLen rest
      (context ++ header ++ d.content.take remaining.toNat ++ str "\n\n")

/-- The (header, snippet) pairs the assembly loop appends, given the
current context length; used to state which entries enter the context. -/
def contextEntries (maxLen : Nat) : List Ranked → Nat → List (Str × Str)
  | [], _ => []
  | d :: rest, curLen =>
    let header := mkHeader d.name d.type
    let remaining : Int :=
      (maxLen : Int) - (curLen : Int) - (header.length : Int) - 100
    if remaining ≤ 0 then []
    else (header, d.content.take remaining.toNat) ::
      contextEntries maxLen rest
        (curLen + header.length + (d.content.take remaining.toNat).length + 2)

/-- `context = "DOCUMENT CONTENTS:\n\n"`, the fixed 20-character lead-in. -/
def ctxPrefix : Str := str "DOCUMENT CONTENTS:\n\n"

/-- Concatenation of (header, snippet) entries the way the loop appends
them: `header + snippet + "\n\n"` each. -/
def entriesText (es : List (Str × Str)) : Str :=
  es.foldr (fun e acc => e.1 ++ e.2 ++ str "\n\n" ++ acc) []

/-- `create_context_from_documents(self, query, max_context_len)`. -/
def create_context_from_documents (st : IngestState) (query : Str) (maxLen : Nat) : Str :=
  if st.contents.isEmpty then str "No documents loaded."
  else contextLoop maxLen (sortByScoreDesc (rankedCandidates st query)) ctxPrefix

/-- The result dict of `ask_question` (keys absent on some paths are options). -/
structure AnswerR where
  answer : Str
  sources : List Str
  confidence : Str
  context_length : Option Nat
  documents_used : Option Nat
deriving DecidableEq

/-- The prompt assembled by `ask_question`. -/
def qaPrompt (question context : Str) : Str :=
  str "You are an AI assistant that answers questions strictly using the\ndocuments provided in the CONTEXT section below. Do NOT hallucinate.\nIf the answer can\x27t be found, explicitly say so and cite the relevant documents.\n\nQUESTION: "
    ++ question ++ str "\n\nCONTEXT:\n" ++ context ++ str "\n\nANSWER:"

/-- `ask_question(self, question)`.  The LLM call is the external parameter
`llm` (its exception is the `Except.error` case).  The method performs no
writes to the stores, so the state is returned unchanged. -/
def ask_question (st : IngestState) (llm : Str → Except Str Str) (question : Str) :
    AnswerR × IngestState :=
  if st.contents.isEmpty then
    (⟨str "No documents are loaded. Please load documents first.",
      [], str "low", none, none⟩, st)
  else
    let context := create_context_from_documents st question 8000
    match llm (qaPrompt question context) with
    | .ok t =>
      (⟨strip t, st.contents.map Prod.fst, str "high",
        some context.length, some (st.contents.map Prod.fst).length⟩, st)
    | .error e =>
      (⟨str "Error generating response: " ++ e, [], str "error", none, none⟩, st)

/-- Outcome of processing one blob: either some statement in the per-blob
`try` block raised (download failure, backend failure, ...), or extraction
completed and returned this text (the supported-extension branches all
assign the backend's result; an unsupported extension leaves the initial
empty string, which the model applies in `processBlob`). -/
inductive BlobOutcome where
  | raises (msg : Str)
  | extracted (text : Str)
deriving DecidableEq

def audioExts : List Str := [str "wav", str "mp3", str "flac", str "m4a"]

def videoExts : List Str := [str "mp4", str "avi", str "mov", str "mkv"]

/-- `blob.name.split(".")[-1].lower()`. -/
def fileExt (name : Str) : Str :=
  lowerStr ((List.splitOnP (fun c => c == '.') name).getLastD [])

/-- `os.path.basename(blob.name)`. -/
def baseName (name : Str) : Str :=
  (List.splitOnP (fun c => c == '/') name).getLastD []

/-- Extensions dispatched to some extraction backend. -/
def supportedExt (ext : Str) : Bool :=
  audioExts.contains ext || videoExts.contains ext ||
    [str "pdf", str "docx", str "pptx", str "txt"].contains ext

/-- The `content_type` label chosen by the dispatch chain. -/
def contentTypeFor (ext : Str) : Str :=
  if audioExts.contains ext then str "Audio Transcript"
  else if videoExts.contains ext then str "Video Transcript"
  else if ext = str "pdf" then str "PDF Document"
  else if ext = str "docx" then str "Word Document"
  else if ext = str "pptx" then str "PowerPoint Presentation"
  else if ext = str "txt" then str "Plain Text"
  else str "Unknown"

/-- `text_content` after the dispatch chain: the backend's result for a
supported extension, the initial `""` otherwise. -/
def extractedText (b t : Str) : Str := if supportedExt (fileExt b) then t else []

/-- The metadata record committed for a blob (`clock b` is the
`datetime.utcnow().isoformat() + "Z"` value at commit time). -/
def commitMeta (bucket b : Str) (clock : Str → Str) (text : Str) : DocMeta :=
  ⟨contentTypeFor (fileExt b), text.length,
    str "gs://" ++ bucket ++ str "/" ++ b, clock b⟩

/-- The body of the per-blob loop of `load_documents_from_gcs`: the
`except` clause turns any raise into a no-op, and a commit happens exactly
when the extracted text is non-empty after stripping. -/
def processBlob (bucket : Str) (env : Str → BlobOutcome) (clock : Str → Str)
    (st : IngestState) (b : Str) : IngestState :=
  match env b with
  | .raises _ => st
  | .extracted t =>
    let text := extractedText b t
    if strip text = [] then st
    else ⟨dictInsert (baseName b) text st.contents,
          dictInsert (baseName b) (commitMeta bucket b clock text) st.metadata⟩

/-- `load_documents_from_gcs(self, bucket_name)`: `blobs` is the listing of
object paths under the `extracted/` prefix; returns the new state together
with `len(self.document_contents)`. -/
def load_documents_from_gcs (bucket : Str) (blobs : List Str)
    (env : Str → BlobOutcome) (clock : Str → Str) (st : IngestState) :
    IngestState × Nat :=
  let final := blobs.foldl (processBlob bucket env clock) st
  (final, final.contents.length)

/-- The write performed on the stores for one blob, if any (value = the
committed text and metadata record); `processBlob` is exactly the
application of this optional write to both stores. -/
def blobWrite (bucket : Str) (env : Str → BlobOutcome) (clock : Str → Str)
    (b : Str) : Option (Str × Str × DocMeta) :=
  match env b with
  | .raises _ => none
  | .extracted t =>
    let text := extractedText b t
    if strip text = [] then none
    else some (baseName b, text, commitMeta bucket b clock text)

/-- The sequence of writes an ingestion run performs on
`document_contents`, in order. -/
def contentWrites (bucket : Str) (env : Str → BlobOutcome) (clock : Str → Str)
    (blobs : List Str) : List (Str × Str) :=
  (blobs.filterMap (blobWrite bucket env clock)).map (fun w => (w.1, w.2.1))

/-- The sequence of writes an ingestion run performs on
`document_metadata`, in order. -/
def metaWrites (bucket : Str) (env : Str → BlobOutcome) (clock : Str → Str)
    (blobs : List Str) : List (Str × DocMeta) :=
  (blobs.filterMap (blobWrite bucket env clock)).map (fun w => (w.1, w.2.2))

/-- A metadata record without its ingestion timestamp (used to state how
two ingestion runs at different times agree). -/
def metaNoTime (m : DocMeta) : Str × Nat × Str := (m.type, m.size_chars, m.gcs_path)

/-- One row of `list_documents()`. -/
structure DocInfo where
  name : Str
  type : Str
  size_chars : Nat
  processed_at : Str
  gcs_path : Str
deriving DecidableEq

/-- `list_documents(self)`. -/
def list_documents (st : IngestState) : List DocInfo :=
  st.metadata.map (fun p => ⟨p.1, p.2.type, p.2.size_chars, p.2.processed_at, p.2.gcs_path⟩)

/-- One hit of `search_documents`. -/
structure SearchHit where
  document : Str
  type : Str
  snippet : Str
  position : Nat
deriving DecidableEq

/-- `search_documents(self, term)`: case-insensitive first-occurrence scan,
snippet of up to 120 characters of context on each side. -/
def search_documents (st : IngestState) (term : Str) : List SearchHit :=
  st.contents.filterMap (fun p =>
    match findSub (lowerStr p.2) (lowerStr term) with
    | none => none
    | some idx =>
      some ⟨p.1, metaType st p.1,
        ((p.2.drop (idx - 120)).take
          (min p.2.length (idx + term.length + 120) - (idx - 120))), idx⟩)

/-- The result dict of `get_document_summary`. -/
structure SummaryR where
  summary : Str
  document_count : Option Nat
  total_chars : Option Nat
  document_types : Option (List Str)
deriving DecidableEq

/-- `get_document_summary(self)` (the summary prompt text is abbreviated;
no claim depends on its wording).  Performs no writes to the stores. -/
def get_document_summary (st : IngestState) (llm : Str → Except Str Str) :
    SummaryR × IngestState :=
  if st.contents.isEmpty then (⟨str "No documents loaded", none, none, none⟩, st)
  else
    let ctx := create_context_from_documents st (str "summary overview") 12000
    match llm (str "Please provide a concise, bullet-point summary of the following\ndocuments.\n\nCONTENTS:\n" ++ ctx ++ str "\n\nSUMMARY:") with
    | .ok t =>
      (⟨strip t, some st.contents.length,
        some ((st.contents.map (fun p => p.2.length)).sum),
        some ((st.metadata.map (fun p => p.2.type)).dedup)⟩, st)
    | .error e => (⟨str "Error generating summary: " ++ e, none, none, none⟩, st)

/-- One public operation of the assistant. -/
inductive Op where
  | opLoad (bucket : Str) (blobs : List Str) (env : Str → BlobOutcome) (clock : Str → Str)
  | opAsk (llm : Str → Except Str Str) (question : Str)
  | opSummary (llm : Str → Except Str Str)
  | opList
  | opSearch (term : Str)

/-- Effect of one public operation on the stores (only ingestion writes;
`ask_question` and `get_document_summary` return the state they were given,
and `list_documents` / `search_documents` are pure reads). -/
def stepOp (st : IngestState) : Op → IngestState
  | .opLoad bucket blobs env clock => (load_documents_from_gcs bucket blobs env clock st).1
  | .opAsk llm q => (ask_question st llm q).2
  | .opSummary llm => (get_document_summary st llm).2
  | .opList => st
  | .opSearch _ => st

/-- The stores of a fresh `GenAIDocumentAssistant`. -/
def initialState : IngestState := ⟨[], []⟩

/-- The corpus invariant: both stores have the same keys in the same
order, every stored text is non-empty after stripping, and each metadata
record's `size_chars` is the length of the stored text. -/
def Inv (st : IngestState) : Prop :=
  st.contents.map Prod.fst = st.metadata.map Prod.fst ∧
  ∀ n t, dlookup st.contents n = some t →
    strip t ≠ [] ∧ ∃ m, dlookup st.metadata n = some m ∧ m.size_chars = t.length

/-! ### Basic lemmas about the state-returning methods -/

theorem ask_question_state (st : IngestState) (llm : Str → Except Str Str) (q : Str) :
    (ask_question st llm q).2 = st := by
  unfold ask_question
  split
  · rfl
  · dsimp only
    cases llm (qaPrompt q (create_context_from_documents st q 8000)) <;> rfl

theorem get_document_summary_state (st : IngestState) (llm : Str → Except Str Str) :
    (get_document_summary st llm).2 = st := by
  unfold get_document_summary
  split
  · rfl
  · dsimp only
    cases llm (str "Please provide a concise, bullet-point summary of the following\ndocuments.\n\nCONTENTS:\n" ++ create_context_from_documents st (str "summary overview") 12000 ++ str "\n\nSUMMARY:") <;> rfl

/-! ### Lemmas on the greedy context-assembly loop -/

theorem ne_nil_of_strip_ne_nil {t : Str} (h : strip t ≠ []) : t ≠ [] := by
  intro ht
  exact h (by rw [ht]; rfl)

theorem entriesText_cons (e : Str × Str) (es : List (Str × Str)) :
    entriesText (e :: es) = e.1 ++ e.2 ++ str "\n\n" ++ entriesText es := rfl

theorem contextLoop_eq_entries (maxLen : Nat) (l : List Ranked) :
    ∀ ctx : Str,
      contextLoop maxLen l ctx = ctx ++ entriesText (contextEntries maxLen l ctx.length) := by
  induction l with
  | nil => intro ctx; simp [contextLoop, contextEntries, entriesText]
  | cons d rest ih =>
    intro ctx
    by_cases hr :
      ((maxLen : Int) - (ctx.length : Int) - ((mkHeader d.name d.type).length : Int) - 100 ≤ 0)
    · simp [contextLoop, contextEntries, hr, entriesText]
    · have hlen :
        (ctx ++ mkHeader d.name d.type ++
          d.content.take ((maxLen : Int) - (ctx.length : Int) -
            ((mkHeader d.name d.type).length : Int) - 100).toNat ++ str "\n\n").length =
        ctx.length + (mkHeader d.name d.type).length +
          (d.content.take ((maxLen : Int) - (ctx.length : Int) -
            ((mkHeader d.name d.type).length : Int) - 100).toNat).length + 2 := by
        have hnl : (str "\n\n").length = 2 := rfl
        simp only [List.length_append, hnl]
      simp only [contextLoop, contextEntries, hr, if_false, entriesText_cons]
      rw [ih, hlen]
      simp [List.append_assoc]

theorem contextLoop_length_le (maxLen : Nat) (l : List Ranked) :
    ∀ ctx : Str, (contextLoop maxLen l ctx).length ≤ max ctx.length maxLen := by
  induction l with
  | nil => intro ctx; simp [contextLoop]
  | cons d rest ih =>
    intro ctx
    by_cases hr :
      ((maxLen : Int) - (ctx.length : Int) - ((mkHeader d.name d.type).length : Int) - 100 ≤ 0)
    · simp only [contextLoop, hr, if_true]
      exact le_max_left _ _
    · simp only [contextLoop, hr, if_false]
      refine le_trans (ih _) (max_le (le_trans ?_ (le_max_right _ _)) (le_max_right _ _))
      have hsnip :
          (d.content.take ((maxLen : Int) - (ctx.length : Int) -
            ((mkHeader d.name d.type).length : Int) - 100).toNat).length ≤
          ((maxLen : Int) - (ctx.length : Int) -
            ((mkHeader d.name d.type).length : Int) - 100).toNat := by
        simp [List.length_take]
      have hnl : (str "\n\n").length = 2 := rfl
      simp only [List.length_append, hnl]
      omega

theorem contextEntries_length_le (maxLen : Nat) (l : List Ranked) :
    ∀ n, (contextEntries maxLen l n).length ≤ l.length := by
  induction l with
  | nil => intro n; simp [contextEntries]
  | cons d rest ih =>
    intro n
    by_cases hr :
      ((maxLen : Int) - (n : Int) - ((mkHeader d.name d.type).length : Int) - 100 ≤ 0)
    · simp [contextEntries, hr]
    · simp only [contextEntries, hr, if_false, List.length_cons]
      exact Nat.succ_le_succ (ih _)

theorem contextEntries_snippets_ne_nil (maxLen : Nat) (l : List Ranked)
    (hl : ∀ r ∈ l, r.content ≠ []) :
    ∀ n, ∀ e ∈ contextEntries maxLen l n, e.2 ≠ [] := by
  induction l with
  | nil => intro n e he; simp [contextEntries] at he
  | cons d rest ih =>
    intro n e he
    by_cases hr :
      ((maxLen : Int) - (n : Int) - ((mkHeader d.name d.type).length : Int) - 100 ≤ 0)
    · simp [contextEntries, hr] at he
    · simp only [contextEntries, hr, if_false, List.mem_cons] at he
      rcases he with he | he
      · have hc : d.content ≠ [] := hl d (List.mem_cons_self d rest)
        have ht : ((maxLen : Int) - (n : Int) -
            ((mkHeader d.name d.type).length : Int) - 100).toNat ≠ 0 := by omega
        rw [he]
        simp only [ne_eq, List.take_eq_nil_iff]
        tauto
      · exact ih (fun r hr => hl r (List.mem_cons_of_mem d hr)) _ e he

theorem insertRanked_perm (a : Ranked) (l : List Ranked) :
    (insertRanked a l).Perm (a :: l) := by
  induction l with
  | nil => simp [insertRanked]
  | cons b t ih =>
    by_cases h : b.score ≤ a.score
    · simp [insertRanked, h]
    · simp only [insertRanked, h, if_false]
      exact (ih.cons b).trans (List.Perm.swap a b t)

theorem sortByScoreDesc_perm (l : List Ranked) : (sortByScoreDesc l).Perm l := by
  induction l with
  | nil => simp [sortByScoreDesc]
  | cons a t ih => exact (insertRanked_perm a (sortByScoreDesc t)).trans (ih.cons a)

theorem mem_rankedCandidates_content (st : IngestState) (q : Str) (r : Ranked)
    (hr : r ∈ rankedCandidates st q) : ∃ p ∈ st.contents, r.content = p.2 := by
  unfold rankedCandidates at hr
  split at hr
  · rcases List.mem_map.mp hr with ⟨p, hp, hpe⟩
    exact ⟨p, List.take_subset 2 st.contents hp, by rw [← hpe]⟩
  · rcases List.mem_filterMap.mp hr with ⟨p, hp, hpe⟩
    refine ⟨p, hp, ?_⟩
    split at hpe
    · cases hpe; rfl
    · cases hpe

/-! ### Claim C1: character-budget respect of the assembled context -/

/-- Claim C1: over any reachable corpus (texts non-empty after stripping),
the context returned by `create_context_from_documents` has length at most
`max_chars + 100` (the per-entry overhead reserve); the context is the
fixed lead-in followed by exactly the entries the guarded loop admits, and
every admitted entry's snippet is non-empty — an entry is appended only
when the remaining budget after subtracting the current length, the header
length and the 100-character reserve is strictly positive. -/
theorem create_context_budget (st : IngestState) (q : Str) (maxLen : Nat)
    (h : ∀ p ∈ st.contents, strip p.2 ≠ []) :
    (create_context_from_documents st q maxLen).length ≤ maxLen + 100 ∧
    (¬ st.contents.isEmpty →
      create_context_from_documents st q maxLen =
        ctxPrefix ++ entriesText
          (contextEntries maxLen (sortByScoreDesc (rankedCandidates st q)) ctxPrefix.length)) ∧
    (∀ e ∈ contextEntries maxLen (sortByScoreDesc (rankedCandidates st q)) ctxPrefix.length,
      e.2 ≠ []) := by
  have hsnips : ∀ e ∈ contextEntries maxLen (sortByScoreDesc (rankedCandidates st q))
      ctxPrefix.length, e.2 ≠ [] := by
    refine contextEntries_snippets_ne_nil maxLen _ ?_ _
    intro r hrmem
    have hr' : r ∈ rankedCandidates st q := (sortByScoreDesc_perm _).mem_iff.mp hrmem
    rcases mem_rankedCandidates_content st q r hr' with ⟨p, hp, hpc⟩
    rw [hpc]
    exact ne_nil_of_strip_ne_nil (h p hp)
  refine ⟨?_, ?_, hsnips⟩
  · unfold create_context_from_documents
    split
    · have : (str "No documents loaded.").length = 20 := rfl
      omega
    · have hb := contextLoop_length_le maxLen (sortByScoreDesc (rankedCandidates st q)) ctxPrefix
      have : ctxPrefix.length = 20 := rfl
      omega
  · intro hne
    unfold create_context_from_documents
    simp only [hne, if_false]
    exact contextLoop_eq_entries maxLen _ ctxPrefix

theorem create_context_budget_witness :
    (∀ p ∈ (IngestState.mk [(str "a.txt", str "The quick brown fox")]
        [(str "a.txt", ⟨str "Plain Text", 19, str "g", str "t"⟩)]).contents, strip p.2 ≠ []) ∧
    (create_context_from_documents
        ⟨[(str "a.txt", str "The quick brown fox")],
         [(str "a.txt", ⟨str "Plain Text", 19, str "g", str "t"⟩)]⟩ (str "fox") 200).length ≤
      200 + 100 :=
  ⟨by decide,
   (create_context_budget
     ⟨[(str "a.txt", str "The quick brown fox")],
      [(str "a.txt", ⟨str "Plain Text", 19, str "g", str "t"⟩)]⟩
     (str "fox") 200 (by decide)).1⟩

/-! ### Lemmas on the stable descending sort -/

theorem filter_insertRanked (s : Nat) (a : Ranked) (l : List Ranked) :
    (insertRanked a l).filter (fun r => decide (r.score = s)) =
      (a :: l).filter (fun r => decide (r.score = s)) := by
  induction l with
  | nil => rfl
  | cons b t ih =>
    by_cases h : b.score ≤ a.score
    · simp [insertRanked, h]
    · by_cases hb : b.score = s
      · have ha : ¬ (a.score = s) := by omega
        simp only [insertRanked, h, if_false]
        simp [List.filter_cons, hb, ha, ih]
      · simp only [insertRanked, h, if_false]
        simp [List.filter_cons, hb, ih]

theorem filter_sortByScoreDesc (s : Nat) (l : List Ranked) :
    (sortByScoreDesc l).filter (fun r => decide (r.score = s)) =
      l.filter (fun r => decide (r.score = s)) := by
  induction l with
  | nil => rfl
  | cons a t ih =>
    rw [sortByScoreDesc, filter_insertRanked]
    simp [List.filter_cons, ih]

theorem sorted_insertRanked (a : Ranked) (l : List Ranked)
    (hl : List.Sorted (fun x y : Ranked => y.score ≤ x.score) l) :
    List.Sorted (fun x y : Ranked => y.score ≤ x.score) (insertRanked a l) := by
  induction l with
  | nil => simp [insertRanked]
  | cons b t ih =>
    rw [List.sorted_cons] at hl
    by_cases h : b.score ≤ a.score
    · simp only [insertRanked, h, if_true, List.sorted_cons]
      refine ⟨?_, ?_⟩
      · intro x hx
        rcases List.mem_cons.mp hx with rfl | hx'
        · exact h
        · exact le_trans (hl.1 x hx') h
      · exact hl
    · simp only [insertRanked, h, if_false, List.sorted_cons]
      refine ⟨?_, ih hl.2⟩
      intro x hx
      have hx2 : x ∈ a :: t := (insertRanked_perm a t).mem_iff.mp hx
      rcases List.mem_cons.mp hx2 with rfl | hx'
      · omega
      · exact hl.1 x hx'

theorem sorted_sortByScoreDesc (l : List Ranked) :
    List.Sorted (fun x y : Ranked => y.score ≤ x.score) (sortByScoreDesc l) := by
  induction l with
  | nil => simp [sortByScoreDesc]
  | cons a t ih => exact sorted_insertRanked a _ ih

theorem sortByScoreDesc_eq_self_of_all_zero (l : List Ranked)
    (h : ∀ r ∈ l, r.score = 0) : sortByScoreDesc l = l := by
  have h1 : l.filter (fun r => decide (r.score = 0)) = l :=
    List.filter_eq_self.mpr (fun a ha => by simp [h a ha])
  have h2 : (sortByScoreDesc l).filter (fun r => decide (r.score = 0)) = sortByScoreDesc l :=
    List.filter_eq_self.mpr (fun a ha => by
      simp [h a ((sortByScoreDesc_perm l).mem_iff.mp ha)])
  rw [← h2, filter_sortByScoreDesc, h1]

theorem docScore_mono (terms : List Str) (c1 c2 : Str)
    (h : ∀ t ∈ terms, containsSub (lowerStr c1) t = true → containsSub (lowerStr c2) t = true) :
    docScore terms c1 ≤ docScore terms c2 := by
  unfold docScore
  induction terms with
  | nil => exact le_refl _
  | cons t ts ih =>
    have ih' := ih (fun u hu hc => h u (List.mem_cons_of_mem t hu) hc)
    by_cases h1 : containsSub (lowerStr c1) t = true
    · have h2 := h t (List.mem_cons_self t ts) h1
      simp only [List.filter_cons, h1, h2, if_true, List.length_cons]
      exact Nat.succ_le_succ ih'
    · by_cases h2 : containsSub (lowerStr c2) t = true
      · simp only [List.filter_cons, h1, h2, if_true, if_false, List.length_cons]
        exact le_trans ih' (Nat.le_succ _)
      · simp only [List.filter_cons, h1, h2, if_false]
        exact ih'

/-! ### Claim C4: descending stable order and score monotonicity -/

/-- Claim C4: the candidate sort is a permutation ordered by score
descending; it is stable — the candidates of any fixed score appear in
exactly their encounter order (the filter to one score class is unchanged
by sorting), with no secondary key; a document matching a superset of the
query terms matched by another scores at least as high; and in the sorted
result a strictly higher-scoring candidate is placed strictly earlier, so
a document matching strictly more terms is placed at or before the other. -/
theorem sort_stable_desc_and_mono (l : List Ranked) :
    List.Sorted (fun x y : Ranked => y.score ≤ x.score) (sortByScoreDesc l) ∧
    (sortByScoreDesc l).Perm l ∧
    (∀ s : Nat, (sortByScoreDesc l).filter (fun r => decide (r.score = s)) =
      l.filter (fun r => decide (r.score = s))) ∧
    (∀ q c1 c2 : Str,
      (∀ t ∈ queryTerms q, containsSub (lowerStr c1) t = true →
        containsSub (lowerStr c2) t = true) →
      docScore (queryTerms q) c1 ≤ docScore (queryTerms q) c2) ∧
    (∀ i j : Fin (sortByScoreDesc l).length,
      ((sortByScoreDesc l).get i).score < ((sortByScoreDesc l).get j).score → j < i) := by
  refine ⟨sorted_sortByScoreDesc l, sortByScoreDesc_perm l,
    fun s => filter_sortByScoreDesc s l,
    fun q c1 c2 => docScore_mono (queryTerms q) c1 c2, ?_⟩
  intro i j hij
  rcases lt_trichotomy i j with hlt | heq | hgt
  · have := (sorted_sortByScoreDesc l).rel_get_of_lt hlt
    omega
  · rw [heq] at hij
    omega
  · exact hgt

theorem sort_stable_desc_and_mono_witness :
    ((∀ t ∈ queryTerms (str "a b"), containsSub (lowerStr (str "xax")) t = true →
        containsSub (lowerStr (str "xaxb")) t = true) ∧
      docScore (queryTerms (str "a b")) (str "xax") ≤
        docScore (queryTerms (str "a b")) (str "xaxb")) ∧
    (∀ i j : Fin (sortByScoreDesc [Ranked.mk (str "d1") (str "xax") 1 (str "Plain Text"),
        Ranked.mk (str "d2") (str "xaxb") 2 (str "Plain Text")]).length,
      ((sortByScoreDesc [Ranked.mk (str "d1") (str "xax") 1 (str "Plain Text"),
        Ranked.mk (str "d2") (str "xaxb") 2 (str "Plain Text")]).get i).score <
        ((sortByScoreDesc [Ranked.mk (str "d1") (str "xax") 1 (str "Plain Text"),
          Ranked.mk (str "d2") (str "xaxb") 2 (str "Plain Text")]).get j).score → j < i) :=
  ⟨⟨by decide,
    (sort_stable_desc_and_mono []).2.2.2.1 (str "a b") (str "xax") (str "xaxb") (by decide)⟩,
   (sort_stable_desc_and_mono [Ranked.mk (str "d1") (str "xax") 1 (str "Plain Text"),
      Ranked.mk (str "d2") (str "xaxb") 2 (str "Plain Text")]).2.2.2.2⟩

/-! ### Claim C3: zero-match fallback -/

theorem scoredCandidates_eq_nil (st : IngestState) (q : Str)
    (h : ∀ p ∈ st.contents, ∀ t ∈ queryTerms q, containsSub (lowerStr p.2) t = false) :
    scoredCandidates st q = [] := by
  unfold scoredCandidates
  dsimp only
  rw [List.filterMap_eq_nil_iff]
  intro p hp
  have hz : docScore (queryTerms q) p.2 = 0 := by
    unfold docScore
    rw [List.length_eq_zero, List.filter_eq_nil_iff]
    intro t ht
    simp [h p hp t ht]
  simp [hz]

/-- Claim C3: for a non-empty corpus and a query none of whose terms
occurs in any document, `create_context_from_documents` does not return
the empty-corpus sentinel; the ranked set is exactly the first at most two
corpus entries in insertion order with score 0 (and is unchanged by the
sort), so the context is assembled from at most two documents. -/
theorem create_context_zero_match_fallback (st : IngestState) (q : Str) (maxLen : Nat)
    (hne : ¬ st.contents.isEmpty)
    (h : ∀ p ∈ st.contents, ∀ t ∈ queryTerms q, containsSub (lowerStr p.2) t = false) :
    create_context_from_documents st q maxLen ≠ str "No documents loaded." ∧
    rankedCandidates st q =
      (st.contents.take 2).map (fun p => ⟨p.1, p.2, 0, metaType st p.1⟩) ∧
    sortByScoreDesc (rankedCandidates st q) = rankedCandidates st q ∧
    (rankedCandidates st q).length ≤ 2 ∧
    (contextEntries maxLen (sortByScoreDesc (rankedCandidates st q))
      ctxPrefix.length).length ≤ 2 := by
  have hranked : rankedCandidates st q =
      (st.contents.take 2).map (fun p => ⟨p.1, p.2, 0, metaType st p.1⟩) := by
    unfold rankedCandidates
    rw [scoredCandidates_eq_nil st q h]
    simp
  have hzero : ∀ r ∈ rankedCandidates st q, r.score = 0 := by
    intro r hr
    rw [hranked] at hr
    rcases List.mem_map.mp hr with ⟨p, _, hpe⟩
    rw [← hpe]
  have hsort : sortByScoreDesc (rankedCandidates st q) = rankedCandidates st q :=
    sortByScoreDesc_eq_self_of_all_zero _ hzero
  have hlen2 : (rankedCandidates st q).length ≤ 2 := by
    rw [hranked, List.length_map]
    exact le_trans (List.length_take_le 2 st.contents) (le_refl 2)
  refine ⟨?_, hranked, hsort, hlen2, ?_⟩
  · unfold create_context_from_documents
    rw [if_neg hne, contextLoop_eq_entries maxLen _ ctxPrefix]
    intro hcon
    have h0 := congrArg (fun u : Str => u[0]?) hcon
    simp only at h0
    rw [List.getElem?_append_left (by decide : (0 : Nat) < ctxPrefix.length)] at h0
    have hD : (ctxPrefix : Str)[(0 : Nat)]? = some 'D' := by decide
    have hN : (str "No documents loaded.")[(0 : Nat)]? = some 'N' := by decide
    rw [hD, hN] at h0
    exact absurd h0 (by decide)
  · exact le_trans (contextEntries_length_le maxLen _ _) (by rw [hsort]; exact hlen2)

theorem create_context_zero_match_fallback_witness :
    (¬ (IngestState.mk [(str "a.txt", str "xyz"), (str "b.txt", str "pq"), (str "c.txt", str "w")]
        [(str "a.txt", ⟨str "Plain Text", 3, str "g", str "t"⟩),
         (str "b.txt", ⟨str "Plain Text", 2, str "g", str "t"⟩),
         (str "c.txt", ⟨str "Plain Text", 1, str "g", str "t"⟩)]).contents.isEmpty) ∧
    (∀ p ∈ (IngestState.mk
        [(str "a.txt", str "xyz"), (str "b.txt", str "pq"), (str "c.txt", str "w")]
        [(str "a.txt", ⟨str "Plain Text", 3, str "g", str "t"⟩),
         (str "b.txt", ⟨str "Plain Text", 2, str "g", str "t"⟩),
         (str "c.txt", ⟨str "Plain Text", 1, str "g", str "t"⟩)]).contents,
      ∀ t ∈ queryTerms (str "missing"), containsSub (lowerStr p.2) t = false) ∧
    create_context_from_documents
        ⟨[(str "a.txt", str "xyz"), (str "b.txt", str "pq"), (str "c.txt", str "w")],
         [(str "a.txt", ⟨str "Plain Text", 3, str "g", str "t"⟩),
          (str "b.txt", ⟨str "Plain Text", 2, str "g", str "t"⟩),
          (str "c.txt", ⟨str "Plain Text", 1, str "g", str "t"⟩)]⟩
        (str "missing") 8000 ≠ str "No documents loaded." := by
  refine ⟨by decide, by decide, ?_⟩
  exact (create_context_zero_match_fallback
    ⟨[(str "a.txt", str "xyz"), (str "b.txt", str "pq"), (str "c.txt", str "w")],
     [(str "a.txt", ⟨str "Plain Text", 3, str "g", str "t"⟩),
      (str "b.txt", ⟨str "Plain Text", 2, str "g", str "t"⟩),
      (str "c.txt", ⟨str "Plain Text", 1, str "g", str "t"⟩)]⟩
    (str "missing") 8000 (by decide) (by decide)).1

/-! ### Claim C5: commit condition and returned count of the ingestion run -/

/-- Claim C5: `load_documents_from_gcs` returns the total number of corpus
entries after the run; a blob whose extracted text strips to empty leaves
the state unchanged, and one whose text strips to non-empty commits the
text and its metadata record (with `size_chars` the text length) under the
blob's basename, to both stores. -/
theorem load_commit_iff_nonempty_strip (bucket : Str) (blobs : List Str)
    (env : Str → BlobOutcome) (clock : Str → Str) (st : IngestState) (b t : Str) :
    (load_documents_from_gcs bucket blobs env clock st).2 =
      (load_documents_from_gcs bucket blobs env clock st).1.contents.length ∧
    (env b = .extracted t → strip (extractedText b t) = [] →
      processBlob bucket env clock st b = st) ∧
    (env b = .extracted t → strip (extractedText b t) ≠ [] →
      processBlob bucket env clock st b =
        ⟨dictInsert (baseName b) (extractedText b t) st.contents,
         dictInsert (baseName b) (commitMeta bucket b clock (extractedText b t)) st.metadata⟩) := by
  refine ⟨rfl, ?_, ?_⟩
  · intro he hs
    simp [processBlob, he, hs]
  · intro he hs
    simp [processBlob, he, hs]

theorem load_commit_iff_nonempty_strip_witness :
    ((fun b => BlobOutcome.extracted (str "")) (str "extracted/a.txt") =
        BlobOutcome.extracted (str "") ∧
      strip (extractedText (str "extracted/a.txt") (str "")) = [] ∧
      processBlob (str "bkt") (fun b => BlobOutcome.extracted (str "")) (fun _ => str "t")
        initialState (str "extracted/a.txt") = initialState) ∧
    ((fun b => BlobOutcome.extracted (str "hi")) (str "extracted/a.txt") =
        BlobOutcome.extracted (str "hi") ∧
      strip (extractedText (str "extracted/a.txt") (str "hi")) ≠ [] ∧
      processBlob (str "bkt") (fun b => BlobOutcome.extracted (str "hi")) (fun _ => str "t")
        initialState (str "extracted/a.txt") =
        ⟨dictInsert (baseName (str "extracted/a.txt"))
            (extractedText (str "extracted/a.txt") (str "hi")) initialState.contents,
         dictInsert (baseName (str "extracted/a.txt"))
            (commitMeta (str "bkt") (str "extracted/a.txt") (fun _ => str "t")
              (extractedText (str "extracted/a.txt") (str "hi")))
            initialState.metadata⟩) :=
  ⟨⟨rfl, by decide,
    (load_commit_iff_nonempty_strip (str "bkt") [] (fun b => BlobOutcome.extracted (str ""))
      (fun _ => str "t") initialState (str "extracted/a.txt") (str "")).2.1 rfl (by decide)⟩,
   ⟨rfl, by decide,
    (load_commit_iff_nonempty_strip (str "bkt") [] (fun b => BlobOutcome.extracted (str "hi"))
      (fun _ => str "t") initialState (str "extracted/a.txt") (str "hi")).2.2 rfl (by decide)⟩⟩

/-! ### Claim C6: a raising blob is skipped and affects nothing -/

/-- Claim C6: an exception raised while processing one object is caught in
the per-object loop; the whole ingestion run over a listing containing the
raising object equals the run over the listing without it, so no other
object's committed entries are affected and the run never aborts. -/
theorem load_skips_raising_blob (bucket : Str) (env : Str → BlobOutcome)
    (clock : Str → Str) (st : IngestState) (msg b : Str) (pre post : List Str)
    (h : env b = .raises msg) :
    load_documents_from_gcs bucket (pre ++ b :: post) env clock st =
      load_documents_from_gcs bucket (pre ++ post) env clock st := by
  have hb : ∀ s, processBlob bucket env clock s b = s := by
    intro s
    simp [processBlob, h]
  unfold load_documents_from_gcs
  rw [List.foldl_append, List.foldl_append, List.foldl_cons, hb]

theorem load_skips_raising_blob_witness :
    (fun x => if x = str "extracted/bad.pdf" then BlobOutcome.raises (str "boom")
      else BlobOutcome.extracted (str "hi")) (str "extracted/bad.pdf") =
        BlobOutcome.raises (str "boom") ∧
    load_documents_from_gcs (str "bkt")
        ([str "extracted/a.txt"] ++ str "extracted/bad.pdf" :: [str "extracted/b.txt"])
        (fun x => if x = str "extracted/bad.pdf" then BlobOutcome.raises (str "boom")
          else BlobOutcome.extracted (str "hi"))
        (fun _ => str "t") initialState =
      load_documents_from_gcs (str "bkt") ([str "extracted/a.txt"] ++ [str "extracted/b.txt"])
        (fun x => if x = str "extracted/bad.pdf" then BlobOutcome.raises (str "boom")
          else BlobOutcome.extracted (str "hi"))
        (fun _ => str "t") initialState :=
  ⟨by decide,
   load_skips_raising_blob (str "bkt")
     (fun x => if x = str "extracted/bad.pdf" then BlobOutcome.raises (str "boom")
       else BlobOutcome.extracted (str "hi"))
     (fun _ => str "t") initialState (str "boom") (str "extracted/bad.pdf")
     [str "extracted/a.txt"] [str "extracted/b.txt"] (by decide)⟩

/-! ### Claims C7 and C8: the two outcomes of `ask_question` -/

/-- Claim C7: with a non-empty corpus and a successful LLM call,
`ask_question` returns the trimmed response text, sources = all loaded
document identifiers (the full key list of the corpus, not filtered to the
context), confidence "high", context_length = the length of the assembled
context, and documents_used = the number of sources. -/
theorem ask_question_success (st : IngestState) (llm : Str → Except Str Str)
    (question t : Str) (hne : ¬ st.contents.isEmpty)
    (hok : llm (qaPrompt question (create_context_from_documents st question 8000)) =
      .ok t) :
    (ask_question st llm question).1 =
      ⟨strip t, st.contents.map Prod.fst, str "high",
        some (create_context_from_documents st question 8000).length,
        some (st.contents.map Prod.fst).length⟩ := by
  simp [ask_question, hne, hok]

theorem ask_question_success_witness :
    (¬ (IngestState.mk [(str "a.txt", str "fox")]
        [(str "a.txt", ⟨str "Plain Text", 3, str "g", str "t"⟩)]).contents.isEmpty) ∧
    ((fun _ => Except.ok (str " An answer. ") : Str → Except Str Str)
      (qaPrompt (str "fox")
        (create_context_from_documents
          ⟨[(str "a.txt", str "fox")], [(str "a.txt", ⟨str "Plain Text", 3, str "g", str "t"⟩)]⟩
          (str "fox") 8000)) = .ok (str " An answer. ")) ∧
    (ask_question
        ⟨[(str "a.txt", str "fox")], [(str "a.txt", ⟨str "Plain Text", 3, str "g", str "t"⟩)]⟩
        (fun _ => Except.ok (str " An answer. ")) (str "fox")).1 =
      ⟨strip (str " An answer. "),
        [(str "a.txt", str "fox")].map Prod.fst, str "high",
        some (create_context_from_documents
          ⟨[(str "a.txt", str "fox")], [(str "a.txt", ⟨str "Plain Text", 3, str "g", str "t"⟩)]⟩
          (str "fox") 8000).length,
        some ([(str "a.txt", str "fox")].map (Prod.fst (β := Str))).length⟩ :=
  ⟨by decide, rfl,
   ask_question_success
     ⟨[(str "a.txt", str "fox")], [(str "a.txt", ⟨str "Plain Text", 3, str "g", str "t"⟩)]⟩
     (fun _ => Except.ok (str " An answer. ")) (str "fox") (str " An answer. ")
     (by decide) rfl⟩

/-- Claim C8: with a non-empty corpus and a raising LLM call,
`ask_question` swallows the exception and returns an answer embedding the
error detail, an empty source list and confidence "error"; the stores are
unchanged by the call. -/
theorem ask_question_failure (st : IngestState) (llm : Str → Except Str Str)
    (question e : Str) (hne : ¬ st.contents.isEmpty)
    (herr : llm (qaPrompt question (create_context_from_documents st question 8000)) =
      .error e) :
    (ask_question st llm question).1 =
      ⟨str "Error generating response: " ++ e, [], str "error", none, none⟩ ∧
    (ask_question st llm question).2 = st := by
  refine ⟨?_, ask_question_state st llm question⟩
  simp [ask_question, hne, herr]

theorem ask_question_failure_witness :
    (¬ (IngestState.mk [(str "a.txt", str "fox")]
        [(str "a.txt", ⟨str "Plain Text", 3, str "g", str "t"⟩)]).contents.isEmpty) ∧
    ((fun _ => Except.error (str "quota") : Str → Except Str Str)
      (qaPrompt (str "fox")
        (create_context_from_documents
          ⟨[(str "a.txt", str "fox")], [(str "a.txt", ⟨str "Plain Text", 3, str "g", str "t"⟩)]⟩
          (str "fox") 8000)) = .error (str "quota")) ∧
    (ask_question
        ⟨[(str "a.txt", str "fox")], [(str "a.txt", ⟨str "Plain Text", 3, str "g", str "t"⟩)]⟩
        (fun _ => Except.error (str "quota")) (str "fox")).1 =
      ⟨str "Error generating response: " ++ str "quota", [], str "error", none, none⟩ ∧
    (ask_question
        ⟨[(str "a.txt", str "fox")], [(str "a.txt", ⟨str "Plain Text", 3, str "g", str "t"⟩)]⟩
        (fun _ => Except.error (str "quota")) (str "fox")).2 =
      ⟨[(str "a.txt", str "fox")], [(str "a.txt", ⟨str "Plain Text", 3, str "g", str "t"⟩)]⟩ := by
  refine ⟨by decide, rfl, ?_⟩
  exact ask_question_failure
    ⟨[(str "a.txt", str "fox")], [(str "a.txt", ⟨str "Plain Text", 3, str "g", str "t"⟩)]⟩
    (fun _ => Except.error (str "quota")) (str "fox") (str "quota") (by decide) rfl

/-! ### Claim C2: the scored candidate set -/

theorem docScore_eq_distinctTermMatches (q c : Str) :
    docScore (queryTerms q) c = distinctTermMatches q c := by
  unfold docScore distinctTermMatches queryTerms
  have hnd : ((splitWs (lowerStr q)).dedup.filter
      (fun t => containsSub (lowerStr c) t)).Nodup :=
    (List.nodup_dedup (splitWs (lowerStr q))).filter _
  have h1 : ((splitWs (lowerStr q)).dedup.filter
      (fun t => containsSub (lowerStr c) t)).length =
      ((splitWs (lowerStr q)).dedup.filter
        (fun t => containsSub (lowerStr c) t)).toFinset.card := by
    rw [List.card_toFinset, List.dedup_eq_self.mpr hnd]
  rw [h1]
  congr 1
  ext t
  simp [List.mem_filter, List.mem_dedup]

/-- Claim C2: a candidate is in the scored set produced by
`create_context_from_documents` (before the fallback) exactly when it is a
corpus entry whose score — the number of distinct lower-cased
whitespace-split query terms occurring as substrings of the lower-cased
text — is strictly positive, carrying that score and the metadata type. -/
theorem scoredCandidates_characterization (st : IngestState) (q : Str) (r : Ranked) :
    r ∈ scoredCandidates st q ↔
      ((r.name, r.content) ∈ st.contents ∧
        r.score = distinctTermMatches q r.content ∧ 0 < r.score ∧
        r.type = metaType st r.name) := by
  unfold scoredCandidates
  dsimp only
  rw [List.mem_filterMap]
  constructor
  · rintro ⟨p, hp, hpe⟩
    split at hpe
    case isTrue hpos =>
      cases hpe
      exact ⟨hp, docScore_eq_distinctTermMatches q p.2, hpos, rfl⟩
    case isFalse => cases hpe
  · rintro ⟨hmem, hscore, hpos, htype⟩
    refine ⟨(r.name, r.content), hmem, ?_⟩
    have hd : docScore (queryTerms q) r.content = r.score := by
      rw [docScore_eq_distinctTermMatches, hscore]
    rw [if_pos (by rw [hd]; exact hpos)]
    rw [hd, ← htype]

theorem scoredCandidates_characterization_witness :
    Ranked.mk (str "a.txt") (str "The quick brown fox") 1 (str "Plain Text") ∈
      scoredCandidates
        ⟨[(str "a.txt", str "The quick brown fox")],
         [(str "a.txt", ⟨str "Plain Text", 19, str "g", str "t"⟩)]⟩ (str "fox") :=
  (scoredCandidates_characterization
    ⟨[(str "a.txt", str "The quick brown fox")],
     [(str "a.txt", ⟨str "Plain Text", 19, str "g", str "t"⟩)]⟩ (str "fox")
    (Ranked.mk (str "a.txt") (str "The quick brown fox") 1 (str "Plain Text"))).mpr
    (by refine ⟨by decide, by decide, by decide, by decide⟩)

/-! ### Lemmas on the dict model -/

theorem dlookup_dictInsert {β : Type} (k : Str) (v : β) (d : List (Str × β)) (k' : Str) :
    dlookup (dictInsert k v d) k' = if k' = k then some v else dlookup d k' := by
  unfold dictInsert dlookup
  have hfn : ((fun p : Str × β => decide (p.1 = k')) ∘
      (fun p => if p.1 = k then (k, v) else p)) = fun p : Str × β => decide (p.1 = k') := by
    funext p
    by_cases hp : p.1 = k <;> simp [hp]
  by_cases hany : d.any (fun p => decide (p.1 = k)) = true
  · rw [if_pos hany, List.find?_map, hfn]
    by_cases hk : k' = k
    · subst hk
      rcases List.any_eq_true.mp hany with ⟨p0, hp0, hpk⟩
      cases hfind : d.find? (fun p => decide (p.1 = k')) with
      | none =>
        rw [List.find?_eq_none] at hfind
        exact absurd hpk (hfind p0 hp0)
      | some q0 =>
        have hq0 : q0.1 = k' := by simpa using List.find?_some hfind
        simp [hq0]
    · cases hfind : d.find? (fun p => decide (p.1 = k')) with
      | none => simp [hk]
      | some q0 =>
        have hq0 : q0.1 = k' := by simpa using List.find?_some hfind
        have hq0k : ¬ (q0.1 = k) := by rw [hq0]; exact hk
        simp [hk, hq0k]
  · rw [if_neg hany, List.find?_append]
    by_cases hk : k' = k
    · subst hk
      have hnone : d.find? (fun p => decide (p.1 = k')) = none := by
        rw [List.find?_eq_none]
        intro p hp hpk
        exact hany (List.any_eq_true.mpr ⟨p, hp, hpk⟩)
      simp [hnone, List.find?_cons]
    · have hks : ¬ (k = k') := fun h => hk h.symm
      simp [hk, List.find?_cons, hks]

theorem keys_dictInsert {β : Type} (k : Str) (v : β) (d : List (Str × β)) :
    (dictInsert k v d).map Prod.fst =
      if k ∈ d.map Prod.fst then d.map Prod.fst else d.map Prod.fst ++ [k] := by
  unfold dictInsert
  have hmem : (d.any (fun p => decide (p.1 = k)) = true) ↔ k ∈ d.map Prod.fst := by
    rw [List.any_eq_true, List.mem_map]
    constructor
    · rintro ⟨p, hp, hpk⟩
      exact ⟨p, hp, by simpa using hpk⟩
    · rintro ⟨p, hp, hpk⟩
      exact ⟨p, hp, by simpa using hpk⟩
  by_cases hk : k ∈ d.map Prod.fst
  · rw [if_pos (hmem.mpr hk), if_pos hk, List.map_map]
    apply List.map_congr_left
    intro p hp
    by_cases hpk : p.1 = k <;> simp [hpk]
  · rw [if_neg (fun h => hk (hmem.mp h)), if_neg hk]
    simp

theorem nodup_keys_dictInsert {β : Type} (k : Str) (v : β) (d : List (Str × β))
    (h : (d.map Prod.fst).Nodup) : ((dictInsert k v d).map Prod.fst).Nodup := by
  rw [keys_dictInsert]
  by_cases hk : k ∈ d.map Prod.fst
  · rwa [if_pos hk]
  · rw [if_neg hk]
    simp [List.nodup_append, h, hk]

/-! ### Claim C10: the corpus invariant over all operation sequences -/

theorem inv_processBlob (bucket : Str) (env : Str → BlobOutcome) (clock : Str → Str)
    (st : IngestState) (b : Str) (h : Inv st) : Inv (processBlob bucket env clock st b) := by
  unfold processBlob
  cases env b with
  | raises _ => exact h
  | extracted t =>
    dsimp only
    split
    · exact h
    case isFalse hs =>
      constructor
      · show (dictInsert (baseName b) _ st.contents).map Prod.fst =
          (dictInsert (baseName b) _ st.metadata).map Prod.fst
        rw [keys_dictInsert, keys_dictInsert, h.1]
      · intro n u hu
        rw [show (IngestState.mk (dictInsert (baseName b) (extractedText b t) st.contents)
            (dictInsert (baseName b) (commitMeta bucket b clock (extractedText b t))
              st.metadata)).contents =
          dictInsert (baseName b) (extractedText b t) st.contents from rfl,
          dlookup_dictInsert] at hu
        by_cases hn : n = baseName b
        · rw [if_pos hn] at hu
          cases hu
          refine ⟨hs, commitMeta bucket b clock (extractedText b t), ?_, rfl⟩
          show dlookup (dictInsert (baseName b) _ st.metadata) n = _
          rw [dlookup_dictInsert, if_pos hn]
        · rw [if_neg hn] at hu
          rcases h.2 n u hu with ⟨h1, m, hm, hsz⟩
          refine ⟨h1, m, ?_, hsz⟩
          show dlookup (dictInsert (baseName b) _ st.metadata) n = _
          rw [dlookup_dictInsert, if_neg hn]
          exact hm

theorem inv_load (bucket : Str) (env : Str → BlobOutcome) (clock : Str → Str) :
    ∀ (blobs : List Str) (st : IngestState), Inv st →
      Inv ((load_documents_from_gcs bucket blobs env clock st).1) := by
  intro blobs
  induction blobs with
  | nil => intro st h; exact h
  | cons b bs ih =>
    intro st h
    show Inv (((b :: bs).foldl (processBlob bucket env clock) st))
    rw [List.foldl_cons]
    exact ih _ (inv_processBlob bucket env clock st b h)

theorem inv_foldl : ∀ (ops : List Op) (st : IngestState), Inv st →
    Inv (ops.foldl stepOp st) := by
  intro ops
  induction ops with
  | nil => intro st h; exact h
  | cons op rest ih =>
    intro st h
    rw [List.foldl_cons]
    refine ih _ ?_
    cases op with
    | opLoad bucket blobs env clock => exact inv_load bucket env clock blobs st h
    | opAsk llm q => rw [show stepOp st (Op.opAsk llm q) = (ask_question st llm q).2 from rfl,
        ask_question_state]; exact h
    | opSummary llm => rw [show stepOp st (Op.opSummary llm) = (get_document_summary st llm).2
        from rfl, get_document_summary_state]; exact h
    | opList => exact h
    | opSearch t => exact h

/-- Claim C10: after any sequence of public operations starting from a
fresh assistant, the two stores have identical key sequences, every stored
text is non-empty after stripping, and each metadata record's
`size_chars` equals the stored text's length — so the metadata lookups in
`create_context_from_documents`, `list_documents` and `search_documents`
never hit a missing key. -/
theorem corpus_invariant (ops : List Op) : Inv (ops.foldl stepOp initialState) := by
  refine inv_foldl ops initialState ⟨rfl, ?_⟩
  intro n t ht
  simp [dlookup, initialState] at ht

/-! ### Lemmas towards re-ingestion idempotence (claim C9) -/

theorem dlookup_applyW {β : Type} (ws : List (Str × β)) :
    ∀ (d : List (Str × β)) (k : Str),
      dlookup (applyW d ws) k = (lastW ws k).or (dlookup d k) := by
  induction ws with
  | nil => intro d k; simp [applyW, lastW]
  | cons w t ih =>
    intro d k
    show dlookup (applyW (dictInsert w.1 w.2 d) t) k = _
    rw [ih, dlookup_dictInsert, lastW, Option.or_assoc]
    by_cases hk : k = w.1
    · subst hk
      simp
    · have hk' : ¬ (w.1 = k) := fun h => hk h.symm
      simp [hk, hk']

theorem keys_applyW {β : Type} (ws : List (Str × β)) :
    ∀ d : List (Str × β),
      (applyW d ws).map Prod.fst = d.map Prod.fst ++ newKeys (d.map Prod.fst) ws := by
  induction ws with
  | nil => intro d; simp [applyW, newKeys]
  | cons w t ih =>
    intro d
    show (applyW (dictInsert w.1 w.2 d) t).map Prod.fst = _
    rw [ih, keys_dictInsert, newKeys]
    by_cases hk : w.1 ∈ d.map Prod.fst
    · rw [if_pos hk, if_pos hk]
    · rw [if_neg hk, if_neg hk]
      simp

theorem newKeys_eq_nil_of_subset {β : Type} (ws : List (Str × β)) :
    ∀ seen : List Str, (∀ w ∈ ws, w.1 ∈ seen) → newKeys seen ws = [] := by
  induction ws with
  | nil => intro seen _; rfl
  | cons w t ih =>
    intro seen h
    rw [newKeys, if_pos (h w (List.mem_cons_self w t))]
    exact ih seen (fun u hu => h u (List.mem_cons_of_mem w hu))

theorem lastW_eq_none_iff {β : Type} (ws : List (Str × β)) (k : Str) :
    lastW ws k = none ↔ k ∉ ws.map Prod.fst := by
  induction ws with
  | nil => simp [lastW]
  | cons w t ih =>
    rw [lastW]
    simp only [List.map_cons, List.mem_cons]
    cases hl : lastW t k with
    | some v =>
      have hmemt : k ∈ t.map Prod.fst := by
        by_contra hc
        rw [← ih] at hc
        rw [hc] at hl
        cases hl
      simp only [Option.or_some]
      constructor
      · intro h; cases h
      · intro h; exact absurd (Or.inr hmemt) h
    | none =>
      simp only [Option.none_or]
      constructor
      · intro h hmem
        rcases hmem with hk | hmemt
        · rw [if_pos hk.symm] at h; cases h
        · exact absurd hmemt (ih.mp hl)
      · intro h
        rw [if_neg (fun hh => h (Or.inl hh.symm))]

theorem dlookup_isSome_iff {β : Type} (d : List (Str × β)) (k : Str) :
    (dlookup d k).isSome = true ↔ k ∈ d.map Prod.fst := by
  unfold dlookup
  constructor
  · intro h
    cases hfind : d.find? (fun p => decide (p.1 = k)) with
    | none => rw [hfind] at h; cases h
    | some p =>
      have hp : p.1 = k := by simpa using List.find?_some hfind
      exact List.mem_map.mpr ⟨p, List.mem_of_find?_eq_some hfind, hp⟩
  · intro h
    rcases List.mem_map.mp h with ⟨p, hp, hpk⟩
    have hsome : (d.find? fun p => decide (p.1 = k)).isSome := by
      rw [List.find?_isSome]
      exact ⟨p, hp, by simpa using hpk⟩
    cases hfind : d.find? (fun p => decide (p.1 = k)) with
    | none => rw [hfind] at hsome; cases hsome
    | some q => simp

theorem writeKey_mem_keys_applyW {β : Type} (ws d : List (Str × β)) (k : Str)
    (h : k ∈ ws.map Prod.fst) : k ∈ (applyW d ws).map Prod.fst := by
  rw [← dlookup_isSome_iff, dlookup_applyW]
  cases hl : lastW ws k with
  | some v => rfl
  | none =>
    rw [lastW_eq_none_iff] at hl
    exact absurd h hl

theorem nodup_keys_applyW {β : Type} (ws : List (Str × β)) :
    ∀ d : List (Str × β), (d.map Prod.fst).Nodup → ((applyW d ws).map Prod.fst).Nodup := by
  induction ws with
  | nil => intro d h; exact h
  | cons w t ih =>
    intro d h
    exact ih (dictInsert w.1 w.2 d) (nodup_keys_dictInsert w.1 w.2 d h)

theorem assoc_ext_map {β γ : Type} (f : β → γ) :
    ∀ (d1 d2 : List (Str × β)),
      d1.map Prod.fst = d2.map Prod.fst →
      (d1.map Prod.fst).Nodup →
      (∀ k, (dlookup d1 k).map f = (dlookup d2 k).map f) →
      d1.map (fun p => (p.1, f p.2)) = d2.map (fun p => (p.1, f p.2)) := by
  intro d1
  induction d1 with
  | nil =>
    intro d2 hkeys _ _
    cases d2 with
    | nil => rfl
    | cons q t => simp at hkeys
  | cons p t1 ih =>
    intro d2 hkeys hnd hlook
    cases d2 with
    | nil => simp at hkeys
    | cons q t2 =>
      simp only [List.map_cons, List.cons.injEq] at hkeys
      obtain ⟨hpq, hkeys2⟩ := hkeys
      have h1 : dlookup (p :: t1) p.1 = some p.2 := by
        simp [dlookup, List.find?_cons]
      have h2 : dlookup (q :: t2) p.1 = some q.2 := by
        have : q.1 = p.1 := hpq.symm
        simp [dlookup, List.find?_cons, this]
      have hv := hlook p.1
      rw [h1, h2, Option.map_some', Option.map_some'] at hv
      have hfv : f p.2 = f q.2 := by
        injection hv
      rw [List.map_cons] at hnd
      have hnd2 := (List.nodup_cons.mp hnd).2
      have hp1 : p.1 ∉ t1.map Prod.fst := (List.nodup_cons.mp hnd).1
      have hlook2 : ∀ k, (dlookup t1 k).map f = (dlookup t2 k).map f := by
        intro k
        by_cases hk : k = p.1
        · have hn1 : dlookup t1 k = none := by
            unfold dlookup
            rw [List.find?_eq_none.mpr, Option.map_none']
            intro x hx
            simp only [decide_eq_true_eq]
            intro hxk
            exact hp1 (List.mem_map.mpr ⟨x, hx, hxk.trans hk⟩)
          have hn2 : dlookup t2 k = none := by
            unfold dlookup
            rw [List.find?_eq_none.mpr, Option.map_none']
            intro x hx
            simp only [decide_eq_true_eq]
            intro hxk
            exact hp1 (by rw [hkeys2]; exact List.mem_map.mpr ⟨x, hx, hxk.trans hk⟩)
          rw [hn1, hn2]
        · have e1 : dlookup (p :: t1) k = dlookup t1 k := by
            have : ¬ (p.1 = k) := fun h => hk h.symm
            simp [dlookup, List.find?_cons, this]
          have e2 : dlookup (q :: t2) k = dlookup t2 k := by
            have : ¬ (q.1 = k) := fun h => hk (hpq ▸ h).symm
            simp [dlookup, List.find?_cons, this]
          have := hlook k
          rwa [e1, e2] at this
      have htail := ih t2 hkeys2 hnd2 hlook2
      simp only [List.map_cons]
      rw [htail, hpq, hfv]

theorem applyW_or_self {β : Type} (l x : Option β) : l.or (l.or x) = l.or x := by
  cases l <;> simp

theorem applyW_idem {β : Type} (ws d : List (Str × β))
    (hnd : (d.map Prod.fst).Nodup) : applyW (applyW d ws) ws = applyW d ws := by
  have hkeys : (applyW (applyW d ws) ws).map Prod.fst = (applyW d ws).map Prod.fst := by
    rw [keys_applyW ws (applyW d ws), newKeys_eq_nil_of_subset, List.append_nil]
    intro w hw
    exact writeKey_mem_keys_applyW ws d w.1 (List.mem_map_of_mem Prod.fst hw)
  have hnd2 : ((applyW (applyW d ws) ws).map Prod.fst).Nodup := by
    rw [hkeys]
    exact nodup_keys_applyW ws d hnd
  have hlook : ∀ k, (dlookup (applyW (applyW d ws) ws) k).map id =
      (dlookup (applyW d ws) k).map id := by
    intro k
    rw [dlookup_applyW, dlookup_applyW, applyW_or_self]
  have hmain := assoc_ext_map id _ _ hkeys hnd2 hlook
  have hid : (fun p : Str × β => (p.1, id p.2)) = id := funext (fun p => rfl)
  rwa [hid, List.map_id, List.map_id] at hmain

theorem load_eq_applyW (bucket : Str) (env : Str → BlobOutcome) (clock : Str → Str) :
    ∀ (blobs : List Str) (st : IngestState),
      (load_documents_from_gcs bucket blobs env clock st).1 =
        ⟨applyW st.contents (contentWrites bucket env clock blobs),
         applyW st.metadata (metaWrites bucket env clock blobs)⟩ := by
  intro blobs
  induction blobs with
  | nil => intro st; rfl
  | cons b bs ih =>
    intro st
    show (load_documents_from_gcs bucket bs env clock
      (processBlob bucket env clock st b)).1 = _
    rw [ih]
    cases he : env b with
    | raises m =>
      simp [processBlob, he, blobWrite, contentWrites, metaWrites, List.filterMap_cons]
    | extracted t =>
      by_cases hs : strip (extractedText b t) = []
      · simp [processBlob, he, hs, blobWrite, contentWrites, metaWrites, List.filterMap_cons]
      · simp only [processBlob, he, hs, if_false, blobWrite, contentWrites, metaWrites,
          List.filterMap_cons, List.map_cons]
        rfl

theorem blobWrite_content_indep_clock (bucket : Str) (env : Str → BlobOutcome)
    (c1 c2 : Str → Str) (b : Str) :
    (blobWrite bucket env c1 b).map (fun w => (w.1, w.2.1)) =
      (blobWrite bucket env c2 b).map (fun w => (w.1, w.2.1)) := by
  unfold blobWrite
  cases env b with
  | raises m => rfl
  | extracted t =>
    dsimp only
    split <;> rfl

theorem blobWrite_meta_indep_clock (bucket : Str) (env : Str → BlobOutcome)
    (c1 c2 : Str → Str) (b : Str) :
    (blobWrite bucket env c1 b).map (fun w => (w.1, metaNoTime w.2.2)) =
      (blobWrite bucket env c2 b).map (fun w => (w.1, metaNoTime w.2.2)) := by
  unfold blobWrite
  cases env b with
  | raises m => rfl
  | extracted t =>
    dsimp only
    split <;> rfl

theorem contentWrites_indep_clock (bucket : Str) (env : Str → BlobOutcome)
    (c1 c2 : Str → Str) (blobs : List Str) :
    contentWrites bucket env c1 blobs = contentWrites bucket env c2 blobs := by
  unfold contentWrites
  rw [List.map_filterMap, List.map_filterMap]
  exact List.filterMap_congr (fun b _ => blobWrite_content_indep_clock bucket env c1 c2 b)

theorem metaWrites_noTime_indep_clock (bucket : Str) (env : Str → BlobOutcome)
    (c1 c2 : Str → Str) (blobs : List Str) :
    (metaWrites bucket env c1 blobs).map (fun w => (w.1, metaNoTime w.2)) =
      (metaWrites bucket env c2 blobs).map (fun w => (w.1, metaNoTime w.2)) := by
  unfold metaWrites
  rw [List.map_map, List.map_map, List.map_filterMap, List.map_filterMap]
  exact List.filterMap_congr (fun b _ => blobWrite_meta_indep_clock bucket env c1 c2 b)

theorem keys_metaWrites_eq_keys_contentWrites (bucket : Str) (env : Str → BlobOutcome)
    (clock : Str → Str) (blobs : List Str) :
    (metaWrites bucket env clock blobs).map Prod.fst =
      (contentWrites bucket env clock blobs).map Prod.fst := by
  unfold metaWrites contentWrites
  rw [List.map_map, List.map_map]
  rfl

theorem lastW_map_congr {β γ : Type} (f : β → γ) :
    ∀ (ws1 ws2 : List (Str × β)),
      ws1.map (fun w => (w.1, f w.2)) = ws2.map (fun w => (w.1, f w.2)) →
      ∀ k, (lastW ws1 k).map f = (lastW ws2 k).map f := by
  intro ws1
  induction ws1 with
  | nil =>
    intro ws2 h k
    cases ws2 with
    | nil => rfl
    | cons w t => simp at h
  | cons w t ih =>
    intro ws2 h k
    cases ws2 with
    | nil => simp at h
    | cons w2 t2 =>
      simp only [List.map_cons, List.cons.injEq, Prod.mk.injEq] at h
      obtain ⟨⟨hk1, hv⟩, ht⟩ := h
      rw [lastW, lastW]
      have htail := ih t2 ht k
      cases h1 : lastW t k with
      | some v1 =>
        cases h2 : lastW t2 k with
        | some v2 =>
          rw [h1, h2, Option.map_some', Option.map_some'] at htail
          simp [htail]
        | none =>
          rw [h1, h2] at htail
          simp at htail
      | none =>
        cases h2 : lastW t2 k with
        | some v2 =>
          rw [h1, h2] at htail
          simp at htail
        | none =>
          rw [hk1]
          by_cases hkk : w2.1 = k
          · simp [hkk, hv]
          · simp [hkk]

/-! ### Claim C9 (corrected): re-ingestion and the ingestion timestamp -/

/-- Counterexample to claim C9 as stated: re-running
`load_documents_from_gcs` over an unchanged listing with identical
extraction results does NOT leave every Document Record's metadata fields
unchanged — the `processed_at` timestamp is taken afresh on each run, so
the corpus after the second run differs from the corpus after the first. -/
theorem reingest_changes_processed_at :
    (load_documents_from_gcs (str "bkt") [str "extracted/a.txt"]
        (fun _ => BlobOutcome.extracted (str "hello")) (fun _ => str "t2")
        (load_documents_from_gcs (str "bkt") [str "extracted/a.txt"]
          (fun _ => BlobOutcome.extracted (str "hello")) (fun _ => str "t1")
          initialState).1).1 ≠
      (load_documents_from_gcs (str "bkt") [str "extracted/a.txt"]
        (fun _ => BlobOutcome.extracted (str "hello")) (fun _ => str "t1")
        initialState).1 := by decide

/-- Claim C9 amended: re-running ingestion over an unchanged listing with
the same extraction results yields the same `document_contents` mapping
and the same returned count, and every metadata record agrees except
possibly in its `processed_at` timestamp; when the per-object timestamps
are also unchanged, the corpus is identical. -/
theorem reingest_idempotent_up_to_timestamp (bucket : Str) (blobs : List Str)
    (env : Str → BlobOutcome) (clock1 clock2 : Str → Str) (st0 : IngestState)
    (hc : (st0.contents.map Prod.fst).Nodup) (hm : (st0.metadata.map Prod.fst).Nodup) :
    (load_documents_from_gcs bucket blobs env clock2
        (load_documents_from_gcs bucket blobs env clock1 st0).1).1.contents =
      (load_documents_from_gcs bucket blobs env clock1 st0).1.contents ∧
    (load_documents_from_gcs bucket blobs env clock2
        (load_documents_from_gcs bucket blobs env clock1 st0).1).2 =
      (load_documents_from_gcs bucket blobs env clock1 st0).2 ∧
    (load_documents_from_gcs bucket blobs env clock2
        (load_documents_from_gcs bucket blobs env clock1 st0).1).1.metadata.map
        (fun p => (p.1, metaNoTime p.2)) =
      (load_documents_from_gcs bucket blobs env clock1 st0).1.metadata.map
        (fun p => (p.1, metaNoTime p.2)) ∧
    (clock2 = clock1 →
      (load_documents_from_gcs bucket blobs env clock2
        (load_documents_from_gcs bucket blobs env clock1 st0).1).1 =
      (load_documents_from_gcs bucket blobs env clock1 st0).1) := by
  have hload1 := load_eq_applyW bucket env clock1 blobs st0
  have hload2 := load_eq_applyW bucket env clock2 blobs
    (load_documents_from_gcs bucket blobs env clock1 st0).1
  have hcw : contentWrites bucket env clock2 blobs = contentWrites bucket env clock1 blobs :=
    contentWrites_indep_clock bucket env clock2 clock1 blobs
  have hcontents :
      (load_documents_from_gcs bucket blobs env clock2
        (load_documents_from_gcs bucket blobs env clock1 st0).1).1.contents =
      (load_documents_from_gcs bucket blobs env clock1 st0).1.contents := by
    rw [hload2, hcw, hload1]
    exact applyW_idem (contentWrites bucket env clock1 blobs) st0.contents hc
  have hkeysm1 : ((load_documents_from_gcs bucket blobs env clock1 st0).1.metadata.map
      Prod.fst).Nodup := by
    rw [hload1]
    exact nodup_keys_applyW _ _ hm
  have hmw2keys : ∀ w ∈ metaWrites bucket env clock2 blobs,
      w.1 ∈ (load_documents_from_gcs bucket blobs env clock1 st0).1.metadata.map Prod.fst := by
    intro w hw
    have h1 : w.1 ∈ (metaWrites bucket env clock2 blobs).map Prod.fst :=
      List.mem_map_of_mem Prod.fst hw
    rw [keys_metaWrites_eq_keys_contentWrites, hcw,
      ← keys_metaWrites_eq_keys_contentWrites bucket env clock1 blobs] at h1
    rw [hload1]
    exact writeKey_mem_keys_applyW _ _ _ h1
  have hkeysm2 : (load_documents_from_gcs bucket blobs env clock2
        (load_documents_from_gcs bucket blobs env clock1 st0).1).1.metadata.map Prod.fst =
      (load_documents_from_gcs bucket blobs env clock1 st0).1.metadata.map Prod.fst := by
    rw [hload2]
    show (applyW _ _).map Prod.fst = _
    rw [keys_applyW, newKeys_eq_nil_of_subset _ _ hmw2keys, List.append_nil]
  have hmwcongr := lastW_map_congr metaNoTime (metaWrites bucket env clock2 blobs)
    (metaWrites bucket env clock1 blobs)
    (metaWrites_noTime_indep_clock bucket env clock2 clock1 blobs)
  have hlookm : ∀ k, (dlookup ((load_documents_from_gcs bucket blobs env clock2
        (load_documents_from_gcs bucket blobs env clock1 st0).1).1.metadata) k).map metaNoTime =
      (dlookup ((load_documents_from_gcs bucket blobs env clock1 st0).1.metadata) k).map
        metaNoTime := by
    intro k
    rw [hload2]
    show (dlookup (applyW _ (metaWrites bucket env clock2 blobs)) k).map metaNoTime = _
    rw [dlookup_applyW]
    cases h2 : lastW (metaWrites bucket env clock2 blobs) k with
    | none => simp
    | some r2 =>
      have hcg := hmwcongr k
      rw [h2] at hcg
      cases h1 : lastW (metaWrites bucket env clock1 blobs) k with
      | none =>
        rw [h1] at hcg
        simp at hcg
      | some r1 =>
        rw [h1, Option.map_some', Option.map_some'] at hcg
        rw [hload1, dlookup_applyW, h1]
        simp only [Option.or_some, Option.map_some']
        exact hcg
  have hmeta : (load_documents_from_gcs bucket blobs env clock2
        (load_documents_from_gcs bucket blobs env clock1 st0).1).1.metadata.map
        (fun p => (p.1, metaNoTime p.2)) =
      (load_documents_from_gcs bucket blobs env clock1 st0).1.metadata.map
        (fun p => (p.1, metaNoTime p.2)) := by
    refine assoc_ext_map metaNoTime _ _ hkeysm2 ?_ hlookm
    rw [hkeysm2]
    exact hkeysm1
  refine ⟨hcontents, ?_, hmeta, ?_⟩
  · show (load_documents_from_gcs bucket blobs env clock2
        (load_documents_from_gcs bucket blobs env clock1 st0).1).1.contents.length = _
    rw [hcontents]
    rfl
  · intro hcl
    subst hcl
    rw [hload2, hload1]
    show IngestState.mk
        (applyW (applyW st0.contents (contentWrites bucket env clock2 blobs))
          (contentWrites bucket env clock2 blobs))
        (applyW (applyW st0.metadata (metaWrites bucket env clock2 blobs))
          (metaWrites bucket env clock2 blobs)) = _
    rw [applyW_idem _ _ hc, applyW_idem _ _ hm]

theorem reingest_idempotent_up_to_timestamp_witness :
    ((initialState.contents.map Prod.fst).Nodup ∧
      (initialState.metadata.map Prod.fst).Nodup) ∧
    (load_documents_from_gcs (str "bkt") [str "extracted/a.txt"]
        (fun _ => BlobOutcome.extracted (str "hello")) (fun _ => str "t2")
        (load_documents_from_gcs (str "bkt") [str "extracted/a.txt"]
          (fun _ => BlobOutcome.extracted (str "hello")) (fun _ => str "t1")
          initialState).1).1.contents =
      (load_documents_from_gcs (str "bkt") [str "extracted/a.txt"]
        (fun _ => BlobOutcome.extracted (str "hello")) (fun _ => str "t1")
        initialState).1.contents :=
  ⟨⟨by decide, by decide⟩,
   (reingest_idempotent_up_to_timestamp (str "bkt") [str "extracted/a.txt"]
     (fun _ => BlobOutcome.extracted (str "hello")) (fun _ => str "t1") (fun _ => str "t2")
     initialState (by decide) (by decide)).1⟩

end DocAssistant
